import Mathlib

/-!
Shallow embedding of the projectory VS Code extension's core logic:
the workspace-history service, the suggestion service, the project-metadata
service, the tag service and the projects tree provider's tag-hierarchy
construction.  JS objects (`Record<string, T>`) are modelled as
insertion-ordered association lists; `Date.now()` and the file system are
an explicit environment.  Timestamps are `Int` (milliseconds); display-only
item fields (icons, descriptions, uris, labels equal to the tag name) are
omitted, everything the tree/suggestion logic branches on is kept.
-/

namespace Projectory

/-- Result of `fs.statSync` on a path: a file (with its text content), a
directory, or nothing (`statSync` throws). -/
inductive StatResult
  | isFile (content : String)
  | isDir
  | absent
deriving DecidableEq

/-- Ambient environment of the services: `Date.now()` and the file system. -/
structure Env where
  now : Int
  stat : String → StatResult

/-- Path separator (`path.sep`); the embedding fixes the POSIX separator. -/
def pathSep : String := "/"

/-- `fs.existsSync`: true when stat finds a file or a directory. -/
def fsExists (env : Env) (p : String) : Bool :=
  match env.stat p with
  | .absent => false
  | _ => true

/-- The whitespace stripped by JS `String.prototype.trim`. -/
def jsWhitespace (c : Char) : Bool :=
  c == ' ' || c == '\t' || c == '\n' || c == '\r'

/-- JS `String.prototype.trim`: strip leading and trailing whitespace. -/
def jsTrim (s : String) : String :=
  String.mk
    (((s.data.dropWhile jsWhitespace).reverse.dropWhile jsWhitespace).reverse)

/-- JS `String.prototype.startsWith`. -/
def strStartsWith (s pre : String) : Bool :=
  pre.data.isPrefixOf s.data

/-- JS `String.prototype.endsWith`. -/
def strEndsWith (s suf : String) : Bool :=
  suf.data.isSuffixOf s.data

/-- Split a character list at every occurrence of one character. -/
def splitOnChar (c : Char) : List Char → List (List Char)
  | [] => [[]]
  | x :: rest =>
      if x == c then [] :: splitOnChar c rest
      else
        match splitOnChar c rest with
        | [] => [[x]]
        | h :: t => (x :: h) :: t

/-- `p.split(path.sep)`: the separator-delimited components of a path. -/
def pathComponents (p : String) : List String :=
  (splitOnChar '/' p.data).map String.mk

/-- `path.basename`: the last separator-delimited component. -/
def basename (p : String) : String :=
  (pathComponents p).getLastD p

/-- Substring occurrence on character lists. -/
def containsSubstrChars (pat : List Char) : List Char → Bool
  | [] => pat.isEmpty
  | x :: rest => pat.isPrefixOf (x :: rest) || containsSubstrChars pat rest

/-- JS `String.prototype.includes`. -/
def containsSubstr (s pat : String) : Bool :=
  containsSubstrChars pat.data s.data

/-- Replace the first occurrence of `pat` on character lists. -/
def replaceFirstChars (pat rep : List Char) : List Char → List Char
  | [] => if pat.isEmpty then rep else []
  | c :: rest =>
      if pat.isPrefixOf (c :: rest) then rep ++ (c :: rest).drop pat.length
      else c :: replaceFirstChars pat rep rest

/-- JS `String.prototype.replace` with a string pattern: replaces only the
first occurrence. -/
def replaceFirst (s pat rep : String) : String :=
  String.mk (replaceFirstChars pat.data rep.data s.data)

/-- `isWorktreePath` (git-info-service): a linked worktree has `.git` as a
FILE whose trimmed content starts with `gitdir:`. -/
def isWorktreePath (env : Env) (folderPath : String) : Bool :=
  match env.stat (folderPath ++ pathSep ++ ".git") with
  | .isFile content => strStartsWith (jsTrim content) "gitdir:"
  | _ => false

/-! ## Workspace history service -/

/-- An entry of the persisted `workspaceHistory` record. -/
structure WorkspaceHistoryEntry where
  path : String
  lastOpened : Int
  openCount : Nat
  firstOpened : Int
deriving DecidableEq

/-- The persisted `Record<string, WorkspaceHistoryEntry>`, as an
insertion-ordered list keyed by `path`. -/
abbrev History := List WorkspaceHistoryEntry

def MAX_HISTORY_ENTRIES : Nat := 100

/-- `history[folderPath]` lookup. -/
def lookupEntry (h : History) (p : String) : Option WorkspaceHistoryEntry :=
  h.find? (fun e => e.path == p)

/-- The comparator `(a, b) => b.lastOpened - a.lastOpened`: sort by
`lastOpened` descending (stable, as JS `Array.prototype.sort`). -/
def byLastOpenedDesc (a b : WorkspaceHistoryEntry) : Prop :=
  b.lastOpened ≤ a.lastOpened

instance : DecidableRel byLastOpenedDesc :=
  fun a b => inferInstanceAs (Decidable (b.lastOpened ≤ a.lastOpened))

instance : IsTotal WorkspaceHistoryEntry byLastOpenedDesc :=
  ⟨fun a b => le_total b.lastOpened a.lastOpened⟩

instance : IsTrans WorkspaceHistoryEntry byLastOpenedDesc :=
  ⟨fun _ _ _ hab hbc => le_trans hbc hab⟩

/-- `getHistorySorted`: all entries sorted by `lastOpened`, most recent
first. -/
def getHistorySorted (h : History) : List WorkspaceHistoryEntry :=
  List.insertionSort byLastOpenedDesc h

/-- `pruneHistory`: keep only the `MAX_HISTORY_ENTRIES` most recent entries
(the rest are deleted from the record by path). -/
def pruneHistory (h : History) : History :=
  if h.length ≤ MAX_HISTORY_ENTRIES then h
  else
    let sorted := List.insertionSort byLastOpenedDesc h
    let toRemove := (sorted.drop MAX_HISTORY_ENTRIES).map (fun e => e.path)
    h.filter (fun e => !toRemove.contains e.path)

/-- The insert-or-update step of `recordOpen` (before pruning): bump the
existing entry in place, or append a fresh one. -/
def applyOpen (now : Int) (folderPath : String) (h : History) : History :=
  match lookupEntry h folderPath with
  | some _ =>
      h.map (fun e =>
        if e.path == folderPath then
          { e with lastOpened := now, openCount := e.openCount + 1 }
        else e)
  | none =>
      h ++ [{ path := folderPath, lastOpened := now, openCount := 1,
              firstOpened := now }]

/-- `recordOpen`: record that a folder was opened; skipped for worktrees,
prunes afterwards. -/
def recordOpen (env : Env) (folderPath : String) (h : History) : History :=
  if isWorktreePath env folderPath then h
  else pruneHistory (applyOpen env.now folderPath h)

/-- `recordCurrentWorkspace`: record the first workspace folder, skipping
worktrees (and doing nothing when no folder is open). -/
def recordCurrentWorkspace (env : Env) (workspaceFolders : List String)
    (h : History) : History :=
  match workspaceFolders with
  | [] => h
  | mainFolder :: _ =>
      if isWorktreePath env mainFolder then h
      else recordOpen env mainFolder h

/-- `getFrequentFolders`: history entries opened at least `minOpenCount`
times, most recently opened first. -/
def getFrequentFolders (minOpenCount : Nat) (h : History) :
    List WorkspaceHistoryEntry :=
  (getHistorySorted h).filter (fun e => decide (minOpenCount ≤ e.openCount))

/-- A folder as returned by `getRecentFolders` (the display `uri` field is
omitted). -/
structure RecentFolder where
  name : String
  path : String
  lastOpened : Int
  openCount : Nat
deriving DecidableEq

/-- The `'<projectName>.worktrees'` check of `getRecentFolders`: some path
component ends in `.worktrees` and, with its first `.worktrees` removed, is
a known project name. -/
def isKnownProjectWorktreeFolder (projectNames : List String) (p : String) :
    Bool :=
  if containsSubstr p ".worktrees" then
    (pathComponents p).any (fun part =>
      strEndsWith part ".worktrees" &&
        projectNames.contains (replaceFirst part ".worktrees" ""))
  else false

/-- A project record (the `uri`, worktree and display fields are omitted;
the tree logic keys on `path` and sorts on `name`). -/
structure Project where
  name : String
  path : String
deriving DecidableEq

/-- `getRecentFolders`: recent folders (most recently opened first) minus
projects, their subfolders, vanished paths and project worktree folders;
also returns the history with the vanished paths removed (the side effect
of the `removeFromHistory` calls). -/
def getRecentFolders (env : Env) (h : History)
    (excludeProjects : List Project) : List RecentFolder × History :=
  let sorted := getHistorySorted h
  let projectPaths := excludeProjects.map (fun p => p.path)
  let projectNames := excludeProjects.map (fun p => p.name)
  let kept := sorted.filter (fun entry =>
    fsExists env entry.path &&
    !projectPaths.contains entry.path &&
    !projectPaths.any (fun pp => strStartsWith entry.path (pp ++ pathSep)) &&
    !isKnownProjectWorktreeFolder projectNames entry.path)
  let folders := kept.map (fun entry =>
    { name := basename entry.path, path := entry.path,
      lastOpened := entry.lastOpened, openCount := entry.openCount })
  let pathsToRemove :=
    (sorted.filter (fun entry => !fsExists env entry.path)).map
      (fun e => e.path)
  (folders, h.filter (fun e => !pathsToRemove.contains e.path))

/-! ## Suggestion service -/

/-- An entry of the persisted `postponedSuggestions` list. -/
structure PostponedSuggestion where
  path : String
  postponedAt : Int
deriving DecidableEq

def POSTPONE_DURATION_DAYS : Int := 7

/-- `isPostponeExpired`: strictly past `postponedAt` plus seven days. -/
def isPostponeExpired (env : Env) (s : PostponedSuggestion) : Bool :=
  decide (s.postponedAt + POSTPONE_DURATION_DAYS * 24 * 60 * 60 * 1000 <
    env.now)

/-- `cleanupExpiredPostponements`: the list kept in the store, and whether
a store update is performed (only when some entry was dropped). -/
def cleanupExpiredPostponements (env : Env)
    (postponed : List PostponedSuggestion) :
    List PostponedSuggestion × Bool :=
  let stillValid := postponed.filter (fun p => !isPostponeExpired env p)
  (stillValid, stillValid.length != postponed.length)

/-- The suggestion-related configuration. -/
structure SuggestionConfig where
  enabled : Bool
  minOpenCount : Nat
  timePeriodDays : Int

/-- An entry of the persisted `savedProjects` list (display fields
omitted). -/
structure SavedProject where
  name : String
  path : String
  savedAt : Int
deriving DecidableEq

/-- `getSuggestibleFolders`: frequent history entries that are enabled for
suggestion: not saved, not ignored, not under an unexpired postponement,
recently opened, existing on disk, and not a linked worktree. -/
def getSuggestibleFolders (env : Env) (config : SuggestionConfig)
    (ignoredPaths : List String) (postponed : List PostponedSuggestion)
    (savedProjects : List SavedProject) (history : History) :
    List WorkspaceHistoryEntry :=
  if !config.enabled then []
  else
    let periodStart := env.now - config.timePeriodDays * 24 * 60 * 60 * 1000
    let postponedPaths :=
      (postponed.filter (fun s => !isPostponeExpired env s)).map
        (fun s => s.path)
    let savedPaths := savedProjects.map (fun p => p.path)
    let frequentFolders := getFrequentFolders config.minOpenCount history
    frequentFolders.filter (fun entry =>
      !savedPaths.contains entry.path &&
      !ignoredPaths.contains entry.path &&
      !postponedPaths.contains entry.path &&
      !(decide (entry.lastOpened < periodStart)) &&
      fsExists env entry.path &&
      !isWorktreePath env entry.path)

/-! ## Project metadata service -/

/-- The persisted `projectMetadata` record: project path to its `tagIds`
list, insertion-ordered. -/
abbrev MetadataStorage := List (String × List String)

namespace ProjectMetadataService

/-- `getTags`: the stored tag names of a project, `[]` when absent. -/
def getTags (all : MetadataStorage) (projectPath : String) : List String :=
  match all.find? (fun e => e.1 == projectPath) with
  | some e => e.2
  | none => []

/-- `setTags`: store the tag list, deleting the entry when the list is
empty. -/
def setTags (all : MetadataStorage) (projectPath : String)
    (tagIds : List String) : MetadataStorage :=
  if tagIds.isEmpty then all.filter (fun e => e.1 != projectPath)
  else if (all.find? (fun e => e.1 == projectPath)).isSome then
    all.map (fun e => if e.1 == projectPath then (projectPath, tagIds) else e)
  else all ++ [(projectPath, tagIds)]

/-- `addTag`: append the tag unless already present. -/
def addTag (all : MetadataStorage) (projectPath tagId : String) :
    MetadataStorage :=
  let tags := getTags all projectPath
  if tags.contains tagId then all
  else setTags all projectPath (tags ++ [tagId])

/-- `removeTag`: drop the tag from the project's list. -/
def removeTag (all : MetadataStorage) (projectPath tagId : String) :
    MetadataStorage :=
  setTags all projectPath
    ((getTags all projectPath).filter (fun i => i != tagId))

/-- `getUntaggedProjects`: the given paths whose metadata is absent or has
no tags. -/
def getUntaggedProjects (all : MetadataStorage)
    (allProjectPaths : List String) : List String :=
  allProjectPaths.filter (fun p => (getTags all p).isEmpty)

end ProjectMetadataService

/-! ## Tag service -/

/-- A tag: name plus its priority (nesting depth level). -/
structure ProjectTag where
  name : String
  priority : Int
deriving DecidableEq

/-- The `projectory.tags` configuration record: tag name to priority,
insertion-ordered. -/
abbrev TagsConfig := List (String × Int)

namespace TagService

/-- `getTags`: all configured tags. -/
def getTags (config : TagsConfig) : List ProjectTag :=
  config.map (fun e => { name := e.1, priority := e.2 })

/-- The name ordering of `getTagsByPriority`'s sort (standing for
`localeCompare`). -/
def byNameLe (a b : ProjectTag) : Prop := a.name ≤ b.name

instance : DecidableRel byNameLe :=
  fun a b => inferInstanceAs (Decidable (a.name ≤ b.name))

/-- `getTagsByPriority`: the tags of one priority level, sorted by name. -/
def getTagsByPriority (config : TagsConfig) (priority : Int) :
    List ProjectTag :=
  List.insertionSort byNameLe
    ((getTags config).filter (fun t => t.priority == priority))

/-- `getTag`: look a tag up by name. -/
def getTag (config : TagsConfig) (name : String) : Option ProjectTag :=
  match config.find? (fun e => e.1 == name) with
  | some e => some { name := name, priority := e.2 }
  | none => none

end TagService

/-! ## Projects tree provider: sorting -/

inductive SortOrder
  | alphabetical
  | recent
deriving DecidableEq

inductive SortDirection
  | asc
  | desc
deriving DecidableEq

/-- The `sortProjectsByRecent` ordering: `history[path].lastOpened`
(defaulting to 0) descending. -/
def byRecentDesc (h : History) (a b : Project) : Prop :=
  (match lookupEntry h b.path with
    | some e => e.lastOpened
    | none => 0) ≤
  (match lookupEntry h a.path with
    | some e => e.lastOpened
    | none => 0)

instance (h : History) : DecidableRel (byRecentDesc h) :=
  fun _ _ => inferInstanceAs (Decidable (_ ≤ _))

/-- `sortProjectsByRecent`: most recently opened first. -/
def sortProjectsByRecent (h : History) (projects : List Project) :
    List Project :=
  List.insertionSort (byRecentDesc h) projects

/-- The `sortProjectsByName` ordering: case-insensitive on names
(standing for `localeCompare`). -/
def byNameCaseInsensitiveLe (a b : Project) : Prop :=
  a.name.toLower ≤ b.name.toLower

instance : DecidableRel byNameCaseInsensitiveLe :=
  fun _ _ => inferInstanceAs (Decidable (_ ≤ _))

/-- `sortProjectsByName`: alphabetical, ascending. -/
def sortProjectsByName (projects : List Project) : List Project :=
  List.insertionSort byNameCaseInsensitiveLe projects

/-- `sortProjects`: sort by the configured order, reversing for the
non-default direction. -/
def sortProjects (h : History) (projects : List Project)
    (sortOrder : SortOrder) (sortDirection : SortDirection) : List Project :=
  match sortOrder with
  | .alphabetical =>
      let sorted := sortProjectsByName projects
      if sortDirection == .desc then sorted.reverse else sorted
  | .recent =>
      let sorted := sortProjectsByRecent h projects
      if sortDirection == .asc then sorted.reverse else sorted

/-! ## Projects tree provider: tag hierarchy -/

/-- The `__untagged__` marker used inside `filterTagIds`. -/
def untaggedMarker : String := "__untagged__"

/-- The provider state and configuration consumed by the tag-hierarchy
view. -/
structure TreeState where
  projects : List Project
  tagsConfig : TagsConfig
  metadata : MetadataStorage
  filterTagIds : List String
  groupingDepth : Int
  history : History
  sortOrder : SortOrder
  sortDirection : SortDirection

/-- A produced tree element: `TagTreeItem` (its label, always the tag
name, is omitted), `UntaggedTreeItem`, or a project item (its display
fields are omitted). -/
inductive TreeNode
  | tagNode (tag : ProjectTag) (tagPath : List String) (count : Nat)
      (hasChildren : Bool)
  | untaggedNode (count : Nat)
  | projectNode (project : Project)
deriving DecidableEq

/-- `getProjectsWithAllTags`: projects carrying every tag of the list. -/
def getProjectsWithAllTags (st : TreeState) (tagIds : List String) :
    List Project :=
  st.projects.filter (fun project =>
    tagIds.all (fun tagId =>
      (ProjectMetadataService.getTags st.metadata project.path).contains
        tagId))

/-- `getProjectCountWithTags`. -/
def getProjectCountWithTags (st : TreeState) (tagIds : List String) : Nat :=
  (getProjectsWithAllTags st tagIds).length

/-- `getFilteredProjectCountUnderTag`: projects carrying the whole tag path
and at least one filter tag. -/
def getFilteredProjectCountUnderTag (st : TreeState)
    (tagPath filterTagIds : List String) : Nat :=
  (st.projects.filter (fun project =>
    let projectTags := ProjectMetadataService.getTags st.metadata project.path
    tagPath.all (fun t => projectTags.contains t) &&
    filterTagIds.any (fun f => projectTags.contains f))).length

/-- `getTagHierarchyRoot`: the root of the by-tags view — with an active
filter, the untagged group (when filtered for) plus the priority-0 tags
under which some project matches a filter tag; without one, the priority-0
tags with matching projects plus the untagged group. -/
def getTagHierarchyRoot (st : TreeState) : List TreeNode :=
  let untaggedPaths :=
    ProjectMetadataService.getUntaggedProjects st.metadata
      (st.projects.map (fun p => p.path))
  if !st.filterTagIds.isEmpty then
    let hasUntaggedFilter := st.filterTagIds.contains untaggedMarker
    let untaggedItems : List TreeNode :=
      if hasUntaggedFilter && !untaggedPaths.isEmpty then
        [.untaggedNode untaggedPaths.length]
      else []
    let filterTagNames := st.filterTagIds.filter (fun n => n != untaggedMarker)
    if !filterTagNames.isEmpty then
      let rootTags := TagService.getTagsByPriority st.tagsConfig 0
      untaggedItems ++ rootTags.filterMap (fun rootTag =>
        let count :=
          getFilteredProjectCountUnderTag st [rootTag.name] filterTagNames
        if count > 0 then
          let isFilterTag := filterTagNames.contains rootTag.name
          some (.tagNode rootTag [rootTag.name] count
            (!isFilterTag && decide (st.groupingDepth > 0)))
        else none)
    else untaggedItems
  else
    let rootTags := TagService.getTagsByPriority st.tagsConfig 0
    (rootTags.filterMap (fun tag =>
      let count := getProjectCountWithTags st [tag.name]
      if count > 0 then
        some (.tagNode tag [tag.name] count (decide (st.groupingDepth > 0)))
      else none)) ++
    (if !untaggedPaths.isEmpty then [.untaggedNode untaggedPaths.length]
     else [])

/-- One iteration of `getTagChildren`'s loop over the next-priority tags:
append the sub-tag item (when it has matching projects) and record the
projects grouped under it. -/
def tagChildStep (st : TreeState) (tagPath : List String)
    (filterTagNames : List String) (nextPriority : Int)
    (acc : List TreeNode × List String) (tag : ProjectTag) :
    List TreeNode × List String :=
  let newTagPath := tagPath ++ [tag.name]
  if !filterTagNames.isEmpty then
    let isFilterTag := filterTagNames.contains tag.name
    let matchingProjects := (getProjectsWithAllTags st newTagPath).filter
      (fun p => filterTagNames.any (fun fn =>
        (ProjectMetadataService.getTags st.metadata p.path).contains fn))
    if !matchingProjects.isEmpty then
      (acc.1 ++ [.tagNode tag newTagPath matchingProjects.length
          (!isFilterTag && decide (nextPriority < st.groupingDepth))],
       if isFilterTag then acc.2 ++ matchingProjects.map (fun p => p.path)
       else acc.2)
    else acc
  else
    let matchingProjects := getProjectsWithAllTags st newTagPath
    if !matchingProjects.isEmpty then
      (acc.1 ++ [.tagNode tag newTagPath matchingProjects.length
          (decide (nextPriority < st.groupingDepth))],
       acc.2 ++ matchingProjects.map (fun p => p.path))
    else acc

/-- `getTagChildren`: the children of a tag node — next-priority sub-tag
nodes (while depth allows) followed by the sorted project items not grouped
under them (and, when filtering, only shown under a filter tag). -/
def getTagChildren (st : TreeState) (parentTag : ProjectTag)
    (tagPath : List String) : List TreeNode :=
  let nextPriority := parentTag.priority + 1
  let filterTagNames := st.filterTagIds.filter (fun n => n != untaggedMarker)
  let isFiltered := !filterTagNames.isEmpty
  let projectsWithAllTags := getProjectsWithAllTags st tagPath
  let grouped :=
    if parentTag.priority < st.groupingDepth then
      (TagService.getTagsByPriority st.tagsConfig nextPriority).foldl
        (tagChildStep st tagPath filterTagNames nextPriority) ([], [])
    else ([], [])
  let projectsAtThisLevel := projectsWithAllTags.filter (fun project =>
    !grouped.2.contains project.path &&
    (!isFiltered ||
      (filterTagNames.any (fun fn =>
        (ProjectMetadataService.getTags st.metadata project.path).contains
          fn) &&
       filterTagNames.contains parentTag.name)))
  let sortedProjects :=
    sortProjects st.history projectsAtThisLevel st.sortOrder st.sortDirection
  grouped.1 ++ sortedProjects.map .projectNode

/-! ## Helper lemmas -/

theorem find?_update_self (now : Int) (p : String) (h : History) :
    (h.map (fun e => if e.path == p then
        { e with lastOpened := now, openCount := e.openCount + 1 }
      else e)).find? (fun e => e.path == p) =
    (h.find? (fun e => e.path == p)).map (fun e =>
      { e with lastOpened := now, openCount := e.openCount + 1 }) := by
  induction h with
  | nil => rfl
  | cons a rest ih =>
    by_cases hp : a.path = p
    · simp [List.find?_cons_of_pos, hp]
    · rw [List.map_cons, if_neg (by simpa using hp),
        List.find?_cons_of_neg _ (by simpa using hp),
        List.find?_cons_of_neg _ (by simpa using hp), ih]

theorem find?_update_other (now : Int) (p q : String) (h : History)
    (hq : q ≠ p) :
    (h.map (fun e => if e.path == p then
        { e with lastOpened := now, openCount := e.openCount + 1 }
      else e)).find? (fun e => e.path == q) =
    h.find? (fun e => e.path == q) := by
  induction h with
  | nil => rfl
  | cons a rest ih =>
    by_cases hp : a.path = p
    · have haq : ¬a.path = q := fun hh => hq (hh ▸ hp)
      rw [List.map_cons, if_pos (by simpa using hp),
        List.find?_cons_of_neg _ (by simpa using haq),
        List.find?_cons_of_neg _ (by simpa using haq), ih]
    · by_cases haq : a.path = q
      · rw [List.map_cons, if_neg (by simpa using hp),
          List.find?_cons_of_pos _ (by simpa using haq),
          List.find?_cons_of_pos _ (by simpa using haq)]
      · rw [List.map_cons, if_neg (by simpa using hp),
          List.find?_cons_of_neg _ (by simpa using haq),
          List.find?_cons_of_neg _ (by simpa using haq), ih]

theorem lookupEntry_applyOpen_self (now : Int) (p : String) (h : History) :
    lookupEntry (applyOpen now p h) p =
      some (match lookupEntry h p with
        | some e =>
            { e with lastOpened := now, openCount := e.openCount + 1 }
        | none =>
            { path := p, lastOpened := now, openCount := 1,
              firstOpened := now }) := by
  unfold applyOpen lookupEntry
  cases hl : h.find? (fun e => e.path == p) with
  | some e =>
      simp only [find?_update_self, hl, Option.map_some']
  | none =>
      rw [List.find?_append, hl, Option.none_or]
      simp [List.find?]

theorem lookupEntry_applyOpen_other (now : Int) (p q : String) (h : History)
    (hq : q ≠ p) :
    lookupEntry (applyOpen now p h) q = lookupEntry h q := by
  unfold applyOpen lookupEntry
  cases hl : h.find? (fun e => e.path == p) with
  | some e => exact find?_update_other now p q h hq
  | none =>
      rw [List.find?_append]
      have : List.find? (fun e => e.path == q)
          ([{ path := p, lastOpened := now, openCount := 1,
              firstOpened := now }] : History) = none := by
        rw [List.find?_cons_of_neg]
        · rfl
        · simp
          exact fun hh => hq (Eq.symm hh)
      rw [this, Option.or_none]

theorem find?_filter_key_ne (all : MetadataStorage) (p : String) :
    (all.filter (fun e => e.1 != p)).find? (fun e => e.1 == p) = none := by
  apply List.find?_eq_none.mpr
  intro x hx
  have := (List.mem_filter.mp hx).2
  simp only [bne_iff_ne, ne_eq, beq_iff_eq] at this ⊢
  exact this

theorem find?_setTags_update (all : MetadataStorage) (p : String)
    (ts : List String) :
    (all.map (fun e => if e.1 == p then (p, ts) else e)).find?
        (fun e => e.1 == p) =
    (all.find? (fun e => e.1 == p)).map (fun _ => (p, ts)) := by
  induction all with
  | nil => rfl
  | cons a rest ih =>
    by_cases hp : a.1 = p
    · simp [List.find?_cons_of_pos, hp]
    · rw [List.map_cons, if_neg (by simpa using hp),
        List.find?_cons_of_neg _ (by simpa using hp),
        List.find?_cons_of_neg _ (by simpa using hp), ih]

theorem getTags_setTags_self (all : MetadataStorage) (p : String)
    (ts : List String) (hts : ts ≠ []) :
    ProjectMetadataService.getTags
      (ProjectMetadataService.setTags all p ts) p = ts := by
  unfold ProjectMetadataService.setTags ProjectMetadataService.getTags
  rw [if_neg (by simpa using hts)]
  by_cases hs : (all.find? (fun e => e.1 == p)).isSome
  · rw [if_pos hs, find?_setTags_update]
    obtain ⟨e, he⟩ := Option.isSome_iff_exists.mp hs
    rw [he, Option.map_some']
  · rw [if_neg hs, List.find?_append,
      Option.not_isSome_iff_eq_none.mp hs, Option.none_or]
    simp [List.find?]

theorem applyOpen_paths_nodup (now : Int) (p : String) (h : History)
    (hnd : (h.map (fun e => e.path)).Nodup) :
    ((applyOpen now p h).map (fun e => e.path)).Nodup := by
  unfold applyOpen lookupEntry
  cases hl : h.find? (fun e => e.path == p) with
  | some e =>
      rw [List.map_map]
      have : ((fun e => e.path) ∘ (fun e : WorkspaceHistoryEntry =>
          if e.path == p then
            { e with lastOpened := now, openCount := e.openCount + 1 }
          else e)) = fun e : WorkspaceHistoryEntry => e.path := by
        funext x
        by_cases hp : x.path = p <;> simp [Function.comp, hp]
      rwa [this]
  | none =>
      have hp : p ∉ h.map (fun e => e.path) := by
        intro hmem
        obtain ⟨x, hx, hxp⟩ := List.mem_map.mp hmem
        have := List.find?_eq_none.mp hl x hx
        simp [hxp] at this
      simp only [List.map_append, List.map_cons, List.map_nil,
        List.nodup_append]
      exact ⟨hnd, List.nodup_singleton p, by
        intro a ha hb
        simp only [List.mem_singleton] at hb
        exact hp (hb ▸ ha)⟩

theorem pruneHistory_spec (h : History)
    (hnd : (h.map (fun e => e.path)).Nodup) :
    (pruneHistory h).length = min h.length MAX_HISTORY_ENTRIES ∧
    (pruneHistory h).Sublist h ∧
    ∀ e ∈ h, e ∉ pruneHistory h →
      ∀ k ∈ pruneHistory h, e.lastOpened ≤ k.lastOpened := by
  unfold pruneHistory
  by_cases hlen : h.length ≤ MAX_HISTORY_ENTRIES
  · rw [if_pos hlen]
    exact ⟨(Nat.min_eq_left hlen).symm, List.Sublist.refl h,
      fun e he hne => absurd he hne⟩
  · rw [if_neg hlen]
    simp only []
    set sorted := List.insertionSort byLastOpenedDesc h with hsorted
    have hperm : sorted.Perm h := List.perm_insertionSort byLastOpenedDesc h
    have hsort : List.Sorted byLastOpenedDesc sorted :=
      List.sorted_insertionSort byLastOpenedDesc h
    have hndS : (sorted.map (fun e => e.path)).Nodup :=
      (List.Perm.nodup_iff (hperm.map (fun e => e.path))).mpr hnd
    set T := sorted.take MAX_HISTORY_ENTRIES with hT
    set D := sorted.drop MAX_HISTORY_ENTRIES with hD
    have hTD : T ++ D = sorted := List.take_append_drop _ sorted
    have hndTD : ((T ++ D).map (fun e => e.path)).Nodup := by
      rw [hTD]; exact hndS
    rw [List.map_append, List.nodup_append] at hndTD
    have hpredT : ∀ e ∈ T,
        (!(D.map (fun x => x.path)).contains e.path) = true := by
      intro e he
      simp only [Bool.not_eq_true', List.elem_eq_mem, decide_eq_false_iff_not]
      intro hmem
      exact hndTD.2.2 (List.mem_map_of_mem (fun x => x.path) he) hmem
    have hpredD : ∀ e ∈ D,
        (!(D.map (fun x => x.path)).contains e.path) = false := by
      intro e he
      simp only [Bool.not_eq_false', List.elem_eq_mem, decide_eq_true_eq]
      exact List.mem_map_of_mem (fun x => x.path) he
    have hkeep : (h.filter
        (fun e => !(D.map (fun x => x.path)).contains e.path)).Perm T := by
      refine List.Perm.trans ((hperm.filter _).symm) ?_
      rw [← hTD, List.filter_append,
        List.filter_eq_self.mpr hpredT,
        List.filter_eq_nil_iff.mpr
          (fun a ha => by rw [hpredD a ha]; exact Bool.false_ne_true),
        List.append_nil]
    have hpair : ∀ a ∈ T, ∀ b ∈ D, byLastOpenedDesc a b := by
      have := hsort
      rw [← hTD] at this
      exact (List.pairwise_append.mp this).2.2
    refine ⟨?_, List.filter_sublist h, ?_⟩
    · rw [hkeep.length_eq, hT, List.length_take, hperm.length_eq]
      omega
    · intro e he hne k hk
      have hpe : (!(D.map (fun x => x.path)).contains e.path) = false := by
        cases hcon : (!(D.map (fun x => x.path)).contains e.path) with
        | false => rfl
        | true => exact absurd (List.mem_filter.mpr ⟨he, hcon⟩) hne
      have heD : e ∈ D := by
        have hes : e ∈ T ++ D := by rw [hTD]; exact hperm.mem_iff.mpr he
        rcases List.mem_append.mp hes with hT' | hD'
        · rw [hpredT e hT'] at hpe; cases hpe
        · exact hD'
      have hkT : k ∈ T := hkeep.mem_iff.mp hk
      exact hpair k hkT e heD

/-! ## Tree-construction helper definitions and lemmas -/

/-- The non-untagged filter tag names of the provider state. -/
def filterNames (st : TreeState) : List String :=
  st.filterTagIds.filter (fun n => n != untaggedMarker)

/-- The sub-tag item one loop iteration of `getTagChildren` appends. -/
def tagChildItem (st : TreeState) (tagPath filterTagNames : List String)
    (nextPriority : Int) (tag : ProjectTag) : List TreeNode :=
  let newTagPath := tagPath ++ [tag.name]
  if !filterTagNames.isEmpty then
    let isFilterTag := filterTagNames.contains tag.name
    let matchingProjects := (getProjectsWithAllTags st newTagPath).filter
      (fun p => filterTagNames.any (fun fn =>
        (ProjectMetadataService.getTags st.metadata p.path).contains fn))
    if !matchingProjects.isEmpty then
      [.tagNode tag newTagPath matchingProjects.length
        (!isFilterTag && decide (nextPriority < st.groupingDepth))]
    else []
  else
    let matchingProjects := getProjectsWithAllTags st newTagPath
    if !matchingProjects.isEmpty then
      [.tagNode tag newTagPath matchingProjects.length
        (decide (nextPriority < st.groupingDepth))]
    else []

/-- The grouped project paths one loop iteration of `getTagChildren`
records. -/
def tagChildGrouped (st : TreeState) (tagPath filterTagNames : List String)
    (tag : ProjectTag) : List String :=
  let newTagPath := tagPath ++ [tag.name]
  if !filterTagNames.isEmpty then
    let isFilterTag := filterTagNames.contains tag.name
    let matchingProjects := (getProjectsWithAllTags st newTagPath).filter
      (fun p => filterTagNames.any (fun fn =>
        (ProjectMetadataService.getTags st.metadata p.path).contains fn))
    if !matchingProjects.isEmpty then
      if isFilterTag then matchingProjects.map (fun p => p.path) else []
    else []
  else
    let matchingProjects := getProjectsWithAllTags st newTagPath
    if !matchingProjects.isEmpty then matchingProjects.map (fun p => p.path)
    else []

theorem tagChildStep_eq (st : TreeState) (tagPath filterTagNames : List String)
    (nextPriority : Int) (acc : List TreeNode × List String)
    (tag : ProjectTag) :
    tagChildStep st tagPath filterTagNames nextPriority acc tag =
      (acc.1 ++ tagChildItem st tagPath filterTagNames nextPriority tag,
       acc.2 ++ tagChildGrouped st tagPath filterTagNames tag) := by
  simp only [tagChildStep, tagChildItem, tagChildGrouped]
  split_ifs <;> simp

theorem foldl_tagChildStep (st : TreeState)
    (tagPath filterTagNames : List String) (nextPriority : Int)
    (tags : List ProjectTag) (is : List TreeNode) (gs : List String) :
    tags.foldl (tagChildStep st tagPath filterTagNames nextPriority)
        (is, gs) =
      (is ++ tags.flatMap (tagChildItem st tagPath filterTagNames
        nextPriority),
       gs ++ tags.flatMap (tagChildGrouped st tagPath filterTagNames)) := by
  induction tags generalizing is gs with
  | nil => simp
  | cons t ts ih =>
      rw [List.foldl_cons, tagChildStep_eq, ih]
      simp [List.flatMap_cons, List.append_assoc]

/-- The sub-tag items produced by `getTagChildren`. -/
def childTagItems (st : TreeState) (parentTag : ProjectTag)
    (tagPath : List String) : List TreeNode :=
  if parentTag.priority < st.groupingDepth then
    (TagService.getTagsByPriority st.tagsConfig
      (parentTag.priority + 1)).flatMap
      (tagChildItem st tagPath (filterNames st) (parentTag.priority + 1))
  else []

/-- The project paths `getTagChildren` groups under sub-tag items. -/
def groupedPaths (st : TreeState) (parentTag : ProjectTag)
    (tagPath : List String) : List String :=
  if parentTag.priority < st.groupingDepth then
    (TagService.getTagsByPriority st.tagsConfig
      (parentTag.priority + 1)).flatMap
      (tagChildGrouped st tagPath (filterNames st))
  else []

/-- The ungrouped projects `getTagChildren` lists directly. -/
def projectsAtLevel (st : TreeState) (parentTag : ProjectTag)
    (tagPath : List String) : List Project :=
  (getProjectsWithAllTags st tagPath).filter (fun project =>
    !(groupedPaths st parentTag tagPath).contains project.path &&
    (!(!(filterNames st).isEmpty) ||
      ((filterNames st).any (fun fn =>
        (ProjectMetadataService.getTags st.metadata project.path).contains
          fn) &&
       (filterNames st).contains parentTag.name)))

theorem getTagChildren_decomp (st : TreeState) (parentTag : ProjectTag)
    (tagPath : List String) :
    getTagChildren st parentTag tagPath =
      childTagItems st parentTag tagPath ++
      (sortProjects st.history (projectsAtLevel st parentTag tagPath)
        st.sortOrder st.sortDirection).map TreeNode.projectNode := by
  by_cases hd : parentTag.priority < st.groupingDepth <;>
    simp [getTagChildren, childTagItems, projectsAtLevel, groupedPaths,
      filterNames, hd, foldl_tagChildStep]

theorem sortProjects_perm (h : History) (projects : List Project)
    (so : SortOrder) (sd : SortDirection) :
    (sortProjects h projects so sd).Perm projects := by
  unfold sortProjects sortProjectsByName sortProjectsByRecent
  cases so <;> cases sd <;> simp only [] <;>
    first
    | exact (List.reverse_perm _).trans (List.perm_insertionSort _ _)
    | exact List.perm_insertionSort _ _

theorem mem_getTagsByPriority (config : TagsConfig) (pr : Int)
    (t : ProjectTag) :
    t ∈ TagService.getTagsByPriority config pr ↔
      (t.name, t.priority) ∈ config ∧ t.priority = pr := by
  unfold TagService.getTagsByPriority TagService.getTags
  rw [(List.perm_insertionSort TagService.byNameLe _).mem_iff,
    List.mem_filter, List.mem_map]
  simp only [beq_iff_eq, decide_eq_true_eq]
  constructor
  · rintro ⟨⟨e, he, rfl⟩, hpr⟩
    exact ⟨he, hpr⟩
  · rintro ⟨hmem, hpr⟩
    exact ⟨⟨(t.name, t.priority), hmem, rfl⟩, hpr⟩

theorem mem_getProjectsWithAllTags (st : TreeState) (tagIds : List String)
    (p : Project) :
    p ∈ getProjectsWithAllTags st tagIds ↔
      p ∈ st.projects ∧
      (tagIds.all (fun tagId =>
        (ProjectMetadataService.getTags st.metadata p.path).contains tagId))
        = true :=
  List.mem_filter

theorem getProjectCountWithTags_pos (st : TreeState) (names : List String) :
    getProjectCountWithTags st names > 0 ↔
      ∃ p ∈ st.projects,
        (names.all (fun tg =>
          (ProjectMetadataService.getTags st.metadata p.path).contains tg))
          = true := by
  unfold getProjectCountWithTags getProjectsWithAllTags
  rw [gt_iff_lt, List.length_pos]
  constructor
  · intro hne
    obtain ⟨p, hp⟩ := List.exists_mem_of_ne_nil _ hne
    obtain ⟨h1, h2⟩ := List.mem_filter.mp hp
    exact ⟨p, h1, h2⟩
  · rintro ⟨p, h1, h2⟩
    exact List.ne_nil_of_mem (List.mem_filter.mpr ⟨h1, h2⟩)

theorem projectNode_not_mem_tagChildItem (st : TreeState)
    (tagPath filterTagNames : List String) (nextPriority : Int)
    (tag : ProjectTag) (p : Project) :
    TreeNode.projectNode p ∉
      tagChildItem st tagPath filterTagNames nextPriority tag := by
  unfold tagChildItem
  split_ifs <;> simp

theorem projectNode_mem_getTagChildren (st : TreeState)
    (parentTag : ProjectTag) (tagPath : List String) (p : Project) :
    TreeNode.projectNode p ∈ getTagChildren st parentTag tagPath ↔
      p ∈ projectsAtLevel st parentTag tagPath := by
  rw [getTagChildren_decomp, List.mem_append]
  constructor
  · rintro (hmem | hmem)
    · exfalso
      unfold childTagItems at hmem
      by_cases hd : parentTag.priority < st.groupingDepth
      · rw [if_pos hd] at hmem
        obtain ⟨a, _, ha⟩ := List.mem_flatMap.mp hmem
        exact projectNode_not_mem_tagChildItem st tagPath (filterNames st)
          (parentTag.priority + 1) a p ha
      · rw [if_neg hd] at hmem
        cases hmem
    · obtain ⟨q, hq, hqp⟩ := List.mem_map.mp hmem
      have hqe : q = p := by
        simpa using hqp
      rw [← hqe]
      exact (sortProjects_perm st.history _ st.sortOrder
        st.sortDirection).mem_iff.mp hq
  · intro hp
    exact Or.inr (List.mem_map_of_mem _
      ((sortProjects_perm st.history _ st.sortOrder
        st.sortDirection).mem_iff.mpr hp))

theorem tagNode_mem_getTagChildren (st : TreeState) (parentTag : ProjectTag)
    (tagPath : List String) (t : ProjectTag) (tp : List String) (c : Nat)
    (hc : Bool) :
    TreeNode.tagNode t tp c hc ∈ getTagChildren st parentTag tagPath ↔
      TreeNode.tagNode t tp c hc ∈ childTagItems st parentTag tagPath := by
  rw [getTagChildren_decomp, List.mem_append]
  constructor
  · rintro (hmem | hmem)
    · exact hmem
    · exfalso
      obtain ⟨q, _, hqp⟩ := List.mem_map.mp hmem
      cases hqp
  · exact Or.inl

theorem exists_tagNode_childTagItems_unfiltered (st : TreeState)
    (parentTag : ProjectTag) (tagPath : List String) (t : ProjectTag)
    (hf : filterNames st = []) :
    (∃ tp c hc,
      TreeNode.tagNode t tp c hc ∈ childTagItems st parentTag tagPath) ↔
      parentTag.priority < st.groupingDepth ∧
      t ∈ TagService.getTagsByPriority st.tagsConfig
        (parentTag.priority + 1) ∧
      getProjectsWithAllTags st (tagPath ++ [t.name]) ≠ [] := by
  unfold childTagItems
  by_cases hd : parentTag.priority < st.groupingDepth
  · rw [if_pos hd]
    constructor
    · rintro ⟨tp, c, hc, hmem⟩
      obtain ⟨a, ha, hitem⟩ := List.mem_flatMap.mp hmem
      rw [hf] at hitem
      unfold tagChildItem at hitem
      simp only [List.isEmpty_nil, Bool.not_true, Bool.false_eq_true,
        if_false] at hitem
      by_cases hne :
          (getProjectsWithAllTags st (tagPath ++ [a.name])).isEmpty = true
      · rw [if_neg (by simp [hne])] at hitem
        cases hitem
      · have hne0 : (getProjectsWithAllTags st
            (tagPath ++ [a.name])).isEmpty = false := by
          cases hq : (getProjectsWithAllTags st
              (tagPath ++ [a.name])).isEmpty
          · rfl
          · exact absurd hq hne
        rw [if_pos (by rw [hne0]; rfl)] at hitem
        have hEq := List.mem_singleton.mp hitem
        have hta : t = a := by
          injection hEq with h1 h2 h3 h4
        subst hta
        exact ⟨hd, ha, List.isEmpty_eq_false.mp hne0⟩
    · rintro ⟨_, hmem, hne⟩
      refine ⟨tagPath ++ [t.name],
        (getProjectsWithAllTags st (tagPath ++ [t.name])).length,
        decide (parentTag.priority + 1 < st.groupingDepth), ?_⟩
      apply List.mem_flatMap.mpr
      refine ⟨t, hmem, ?_⟩
      rw [hf]
      unfold tagChildItem
      simp only [List.isEmpty_nil, Bool.not_true, Bool.false_eq_true,
        if_false]
      rw [if_pos (by simp [Bool.not_eq_true', List.isEmpty_eq_false, hne])]
      exact List.mem_singleton.mpr rfl
  · rw [if_neg hd]
    simp [hd]

theorem tagNode_childTagItems_unfiltered_inv (st : TreeState)
    (parentTag : ProjectTag) (tagPath : List String) (t : ProjectTag)
    (tp : List String) (c : Nat) (hc : Bool) (hf : filterNames st = [])
    (hmem :
      TreeNode.tagNode t tp c hc ∈ childTagItems st parentTag tagPath) :
    parentTag.priority < st.groupingDepth ∧
    t ∈ TagService.getTagsByPriority st.tagsConfig
      (parentTag.priority + 1) ∧
    tp = tagPath ++ [t.name] ∧
    getProjectsWithAllTags st (tagPath ++ [t.name]) ≠ [] := by
  unfold childTagItems at hmem
  by_cases hd : parentTag.priority < st.groupingDepth
  · rw [if_pos hd] at hmem
    obtain ⟨a, ha, hitem⟩ := List.mem_flatMap.mp hmem
    rw [hf] at hitem
    unfold tagChildItem at hitem
    simp only [List.isEmpty_nil, Bool.not_true, Bool.false_eq_true,
      if_false] at hitem
    by_cases hne :
        (getProjectsWithAllTags st (tagPath ++ [a.name])).isEmpty = true
    · rw [if_neg (by simp [hne])] at hitem
      cases hitem
    · have hne0 : (getProjectsWithAllTags st
          (tagPath ++ [a.name])).isEmpty = false := by
        cases hq : (getProjectsWithAllTags st
            (tagPath ++ [a.name])).isEmpty
        · rfl
        · exact absurd hq hne
      rw [if_pos (by rw [hne0]; rfl)] at hitem
      have hEq := List.mem_singleton.mp hitem
      injection hEq with h1 h2 h3 h4
      subst h1
      exact ⟨hd, ha, h2, List.isEmpty_eq_false.mp hne0⟩
  · rw [if_neg hd] at hmem
    cases hmem

theorem mem_groupedPaths_unfiltered (st : TreeState)
    (parentTag : ProjectTag) (tagPath : List String) (p : Project)
    (hf : filterNames st = []) (hp : p ∈ st.projects) :
    p.path ∈ groupedPaths st parentTag tagPath ↔
      ∃ t tp c hc,
        TreeNode.tagNode t tp c hc ∈ childTagItems st parentTag tagPath ∧
        p ∈ getProjectsWithAllTags st tp := by
  unfold groupedPaths
  by_cases hd : parentTag.priority < st.groupingDepth
  · rw [if_pos hd]
    constructor
    · intro hmem
      obtain ⟨a, ha, hg⟩ := List.mem_flatMap.mp hmem
      rw [hf] at hg
      unfold tagChildGrouped at hg
      simp only [List.isEmpty_nil, Bool.not_true, Bool.false_eq_true,
        if_false] at hg
      by_cases hne :
          (getProjectsWithAllTags st (tagPath ++ [a.name])).isEmpty = true
      · rw [if_neg (by simp [hne])] at hg
        cases hg
      · have hne0 : (getProjectsWithAllTags st
            (tagPath ++ [a.name])).isEmpty = false := by
          cases hq : (getProjectsWithAllTags st
              (tagPath ++ [a.name])).isEmpty
          · rfl
          · exact absurd hq hne
        rw [if_pos (by rw [hne0]; rfl)] at hg
        obtain ⟨q, hq, hqp⟩ := List.mem_map.mp hg
        have hpm : p ∈ getProjectsWithAllTags st (tagPath ++ [a.name]) := by
          obtain ⟨hq1, hq2⟩ := List.mem_filter.mp hq
          refine List.mem_filter.mpr ⟨hp, ?_⟩
          rw [← hqp]
          exact hq2
        refine ⟨a, tagPath ++ [a.name],
          (getProjectsWithAllTags st (tagPath ++ [a.name])).length,
          decide (parentTag.priority + 1 < st.groupingDepth), ?_, hpm⟩
        unfold childTagItems
        rw [if_pos hd]
        apply List.mem_flatMap.mpr
        refine ⟨a, ha, ?_⟩
        rw [hf]
        unfold tagChildItem
        simp only [List.isEmpty_nil, Bool.not_true, Bool.false_eq_true,
          if_false]
        rw [if_pos (by rw [hne0]; rfl)]
        exact List.mem_singleton.mpr rfl
    · rintro ⟨t, tp, c, hc, hnode, hpm⟩
      obtain ⟨hd', hat, htp, hne⟩ :=
        tagNode_childTagItems_unfiltered_inv st parentTag tagPath t tp c hc
          hf hnode
      apply List.mem_flatMap.mpr
      refine ⟨t, hat, ?_⟩
      rw [hf]
      unfold tagChildGrouped
      simp only [List.isEmpty_nil, Bool.not_true, Bool.false_eq_true,
        if_false]
      rw [if_pos (by simp [Bool.not_eq_true', List.isEmpty_eq_false, hne])]
      apply List.mem_map_of_mem
      rw [htp] at hpm
      exact hpm
  · rw [if_neg hd]
    constructor
    · intro hmem
      cases hmem
    · rintro ⟨t, tp, c, hc, hnode, _⟩
      exfalso
      unfold childTagItems at hnode
      rw [if_neg hd] at hnode
      cases hnode

theorem getProjectsWithAllTags_ne_nil (st : TreeState)
    (names : List String) :
    getProjectsWithAllTags st names ≠ [] ↔
      ∃ p ∈ st.projects,
        (names.all (fun tg =>
          (ProjectMetadataService.getTags st.metadata p.path).contains tg))
          = true := by
  rw [← List.length_pos, ← gt_iff_lt]
  exact getProjectCountWithTags_pos st names

theorem getFilteredProjectCountUnderTag_pos (st : TreeState)
    (tagPath filterIds : List String) :
    getFilteredProjectCountUnderTag st tagPath filterIds > 0 ↔
      ∃ p ∈ st.projects,
        (tagPath.all (fun tg =>
          (ProjectMetadataService.getTags st.metadata p.path).contains tg))
          = true ∧
        (filterIds.any (fun f =>
          (ProjectMetadataService.getTags st.metadata p.path).contains f))
          = true := by
  unfold getFilteredProjectCountUnderTag
  rw [gt_iff_lt, List.length_pos]
  constructor
  · intro hne
    obtain ⟨p, hp⟩ := List.exists_mem_of_ne_nil _ hne
    obtain ⟨h1, h2⟩ := List.mem_filter.mp hp
    rw [Bool.and_eq_true] at h2
    exact ⟨p, h1, h2.1, h2.2⟩
  · rintro ⟨p, h1, h2, h3⟩
    refine List.ne_nil_of_mem (List.mem_filter.mpr ⟨h1, ?_⟩)
    rw [Bool.and_eq_true]
    exact ⟨h2, h3⟩

theorem getUntaggedProjects_ne_nil (st : TreeState) :
    ProjectMetadataService.getUntaggedProjects st.metadata
        (st.projects.map (fun p => p.path)) ≠ [] ↔
      ∃ p ∈ st.projects,
        ProjectMetadataService.getTags st.metadata p.path = [] := by
  constructor
  · intro hne
    obtain ⟨x, hx⟩ := List.exists_mem_of_ne_nil _ hne
    obtain ⟨hx1, hx2⟩ := List.mem_filter.mp hx
    obtain ⟨p, hp, hpx⟩ := List.mem_map.mp hx1
    refine ⟨p, hp, ?_⟩
    rw [hpx]
    exact List.isEmpty_iff.mp hx2
  · rintro ⟨p, hp, htags⟩
    apply List.ne_nil_of_mem
    show p.path ∈ _
    exact List.mem_filter.mpr ⟨List.mem_map_of_mem _ hp,
      List.isEmpty_iff.mpr htags⟩

/-! ## Claim theorems -/

/-- C6: a postponement is expired iff the current time strictly exceeds
its `postponedAt` plus `7 * 24 * 60 * 60 * 1000` milliseconds;
`cleanupExpiredPostponements` keeps exactly the unexpired postponements
and performs no store update when none are expired. -/
theorem C6_postpone_expiry (env : Env) (ps : List PostponedSuggestion)
    (s q : PostponedSuggestion) :
    (isPostponeExpired env s = true ↔
      s.postponedAt + 7 * 24 * 60 * 60 * 1000 < env.now) ∧
    (q ∈ (cleanupExpiredPostponements env ps).1 ↔
      q ∈ ps ∧ isPostponeExpired env q = false) ∧
    ((∀ r ∈ ps, isPostponeExpired env r = false) →
      (cleanupExpiredPostponements env ps).2 = false) := by
  refine ⟨?_, ?_, ?_⟩
  · simp [isPostponeExpired, POSTPONE_DURATION_DAYS]
  · simp [cleanupExpiredPostponements, List.mem_filter]
  · intro hall
    have : ps.filter (fun r => !isPostponeExpired env r) = ps :=
      List.filter_eq_self.mpr (fun r hr => by simp [hall r hr])
    simp [cleanupExpiredPostponements, this]

/-- C7: project metadata is a path-to-tag-set mapping: `addTag` followed
by `getTags` yields the tag; `addTag` is idempotent and a no-op when the
tag is present; `setTags` with `[]`, and `removeTag` of the last tag,
delete the path's entry entirely, after which `getTags` is empty. -/
theorem C7_metadata_tag_map (all : MetadataStorage) (p t : String) :
    t ∈ ProjectMetadataService.getTags
        (ProjectMetadataService.addTag all p t) p ∧
    ProjectMetadataService.addTag (ProjectMetadataService.addTag all p t) p t
      = ProjectMetadataService.addTag all p t ∧
    ((ProjectMetadataService.getTags all p).contains t = true →
      ProjectMetadataService.addTag all p t = all) ∧
    ((ProjectMetadataService.setTags all p []).find? (fun e => e.1 == p)
        = none ∧
      ProjectMetadataService.getTags
        (ProjectMetadataService.setTags all p []) p = []) ∧
    (ProjectMetadataService.getTags all p = [t] →
      ((ProjectMetadataService.removeTag all p t).find? (fun e => e.1 == p)
          = none ∧
        ProjectMetadataService.getTags
          (ProjectMetadataService.removeTag all p t) p = [])) := by
  have hget : ∀ (m : MetadataStorage),
      t ∈ ProjectMetadataService.getTags (ProjectMetadataService.addTag m p t)
        p := by
    intro m
    unfold ProjectMetadataService.addTag
    by_cases hc : (ProjectMetadataService.getTags m p).contains t
    · rw [if_pos hc]
      exact List.mem_of_elem_eq_true hc
    · rw [if_neg hc,
        getTags_setTags_self m p _ (by simp)]
      simp
  have hnoopOf : ∀ (m : MetadataStorage),
      (ProjectMetadataService.getTags m p).contains t = true →
      ProjectMetadataService.addTag m p t = m := by
    intro m hc
    unfold ProjectMetadataService.addTag
    rw [if_pos hc]
  have h4a : (ProjectMetadataService.setTags all p []).find?
      (fun e => e.1 == p) = none := by
    unfold ProjectMetadataService.setTags
    rw [if_pos (by simp)]
    exact find?_filter_key_ne all p
  have h4b : ProjectMetadataService.getTags
      (ProjectMetadataService.setTags all p []) p = [] := by
    unfold ProjectMetadataService.getTags
    rw [h4a]
  refine ⟨hget all, ?_, hnoopOf all, ⟨h4a, h4b⟩, ?_⟩
  · exact hnoopOf _ (by simpa using hget all)
  · intro hlast
    unfold ProjectMetadataService.removeTag
    rw [hlast]
    have hfe : [t].filter (fun i => i != t) = [] := by simp
    rw [hfe]
    exact ⟨h4a, h4b⟩


/-- A concrete environment whose file system is empty. -/
def envAbsent : Env := { now := 10, stat := fun _ => .absent }

/-- A concrete environment where `/w` is a linked worktree. -/
def envWt : Env :=
  { now := 5,
    stat := fun q => if q == "/w/.git" then .isFile "gitdir: x" else .absent }

/-- C9: `recordOpen` (and hence `recordCurrentWorkspace`) on a linked
worktree path — one whose `.git` is a file whose content starts with
`gitdir:` — is a no-op on the history. -/
theorem C9_recordOpen_worktree_noop (env : Env) (p content : String)
    (rest : List String) (h : History)
    (hstat : env.stat (p ++ pathSep ++ ".git") = .isFile content)
    (hgit : strStartsWith (jsTrim content) "gitdir:" = true) :
    recordOpen env p h = h ∧
    recordCurrentWorkspace env (p :: rest) h = h := by
  have hw : isWorktreePath env p = true := by
    unfold isWorktreePath
    rw [hstat]
    exact hgit
  refine ⟨?_, ?_⟩
  · unfold recordOpen
    rw [hw]
    simp
  · show (if isWorktreePath env p then h else recordOpen env p h) = h
    rw [hw]
    simp

/-- Witness for C9: the concrete worktree `/w` with a one-entry history. -/
theorem C9_recordOpen_worktree_noop_witness :
    recordOpen envWt "/w" [⟨"/x", 1, 1, 1⟩] = [⟨"/x", 1, 1, 1⟩] ∧
    recordCurrentWorkspace envWt ["/w"] [⟨"/x", 1, 1, 1⟩]
      = [⟨"/x", 1, 1, 1⟩] :=
  C9_recordOpen_worktree_noop envWt "/w" "gitdir: x" [] [⟨"/x", 1, 1, 1⟩]
    (by decide) (by decide)

/-- C5: `recordOpen` on a non-worktree path is prune after insert-or-update:
an existing entry gets `lastOpened := now` and `openCount + 1` with `path`
and `firstOpened` unchanged, a missing one is created with count 1 and both
timestamps `now`, and every other path's entry is unchanged before
pruning. -/
theorem C5_recordOpen_updates (env : Env) (p : String) (h : History)
    (hw : isWorktreePath env p = false) :
    recordOpen env p h = pruneHistory (applyOpen env.now p h) ∧
    lookupEntry (applyOpen env.now p h) p =
      some (match lookupEntry h p with
        | some e =>
            { e with lastOpened := env.now, openCount := e.openCount + 1 }
        | none =>
            { path := p, lastOpened := env.now, openCount := 1,
              firstOpened := env.now }) ∧
    ∀ q, q ≠ p → lookupEntry (applyOpen env.now p h) q = lookupEntry h q := by
  refine ⟨?_, lookupEntry_applyOpen_self env.now p h,
    fun q hq => lookupEntry_applyOpen_other env.now p q h hq⟩
  unfold recordOpen
  rw [hw]
  simp

/-- Witness for C5: recording `/a` over a one-entry history in an empty
file system. -/
theorem C5_recordOpen_updates_witness :
    isWorktreePath envAbsent "/a" = false ∧
    (recordOpen envAbsent "/a" [⟨"/a", 1, 1, 1⟩]
        = pruneHistory (applyOpen envAbsent.now "/a" [⟨"/a", 1, 1, 1⟩]) ∧
      lookupEntry (applyOpen envAbsent.now "/a" [⟨"/a", 1, 1, 1⟩]) "/a" =
        some (match lookupEntry [⟨"/a", 1, 1, 1⟩] "/a" with
          | some e =>
              { e with lastOpened := envAbsent.now,
                       openCount := e.openCount + 1 }
          | none =>
              { path := "/a", lastOpened := envAbsent.now, openCount := 1,
                firstOpened := envAbsent.now }) ∧
      ∀ q, q ≠ "/a" →
        lookupEntry (applyOpen envAbsent.now "/a" [⟨"/a", 1, 1, 1⟩]) q
          = lookupEntry [⟨"/a", 1, 1, 1⟩] q) :=
  ⟨by decide, C5_recordOpen_updates envAbsent "/a" [⟨"/a", 1, 1, 1⟩]
    (by decide)⟩

/-- C1: `getSuggestibleFolders` returns exactly the history entries that
pass every eligibility check (enabled, frequency, not saved, not ignored,
not under an unexpired postponement, recently opened, existing, not a
worktree), and the empty list when suggestions are disabled. -/
theorem C1_getSuggestibleFolders_spec (env : Env) (config : SuggestionConfig)
    (ignoredPaths : List String) (postponed : List PostponedSuggestion)
    (savedProjects : List SavedProject) (history : History)
    (e : WorkspaceHistoryEntry) :
    getSuggestibleFolders env { config with enabled := false } ignoredPaths
      postponed savedProjects history = [] ∧
    (e ∈ getSuggestibleFolders env config ignoredPaths postponed
        savedProjects history ↔
      config.enabled = true ∧ e ∈ history ∧
      config.minOpenCount ≤ e.openCount ∧
      (∀ sp ∈ savedProjects, sp.path ≠ e.path) ∧
      e.path ∉ ignoredPaths ∧
      (∀ s ∈ postponed, s.path = e.path → isPostponeExpired env s = true) ∧
      env.now - config.timePeriodDays * 24 * 60 * 60 * 1000 ≤ e.lastOpened ∧
      fsExists env e.path = true ∧
      isWorktreePath env e.path = false) := by
  constructor
  · simp [getSuggestibleFolders]
  · cases hen : config.enabled with
    | false => simp [getSuggestibleFolders, hen]
    | true =>
      simp only [getSuggestibleFolders, hen, Bool.not_true, Bool.false_eq_true,
        if_false]
      rw [List.mem_filter]
      unfold getFrequentFolders getHistorySorted
      rw [List.mem_filter,
        (List.perm_insertionSort byLastOpenedDesc history).mem_iff]
      simp only [Bool.and_eq_true, Bool.not_eq_true', List.elem_eq_mem,
        decide_eq_true_eq, decide_eq_false_iff_not, not_lt, List.mem_map,
        List.mem_filter, true_and, not_exists, not_and, ne_eq, and_assoc]
      constructor
      · rintro ⟨hmem, hcount, hsaved, hignored, hpost, hperiod, hex, hwt⟩
        refine ⟨hmem, hcount, hsaved, hignored, ?_, hperiod, hex, hwt⟩
        intro s hs heq
        by_contra hexp
        exact hpost s hs (by simpa using hexp) heq
      · rintro ⟨hmem, hcount, hsaved, hignored, hpost, hperiod, hex, hwt⟩
        refine ⟨hmem, hcount, hsaved, hignored, ?_, hperiod, hex, hwt⟩
        intro s hs hnexp heq
        exact absurd (hpost s hs heq) (by simp [hnexp])

/-- C8: after `recordOpen` on a non-worktree path the history holds at most
`MAX_HISTORY_ENTRIES` (100) entries: it is the pruning of the
inserted-or-updated history, keeping min(size, 100) of its entries, and
every pruned-away entry has `lastOpened` at most that of every kept entry,
so the most recently opened entries are the ones kept. -/
theorem C8_recordOpen_prune_bound (env : Env) (p : String) (h : History)
    (hw : isWorktreePath env p = false)
    (hnd : (h.map (fun e => e.path)).Nodup) :
    (recordOpen env p h).length ≤ MAX_HISTORY_ENTRIES ∧
    (recordOpen env p h).length
      = min (applyOpen env.now p h).length MAX_HISTORY_ENTRIES ∧
    (recordOpen env p h).Sublist (applyOpen env.now p h) ∧
    (∀ e ∈ applyOpen env.now p h, e ∉ recordOpen env p h →
      ∀ k ∈ recordOpen env p h, e.lastOpened ≤ k.lastOpened) := by
  have hro : recordOpen env p h = pruneHistory (applyOpen env.now p h) := by
    unfold recordOpen
    rw [hw]
    simp
  obtain ⟨h1, h2, h3⟩ := pruneHistory_spec (applyOpen env.now p h)
    (applyOpen_paths_nodup env.now p h hnd)
  rw [hro]
  exact ⟨by rw [h1]; exact Nat.min_le_right _ _, h1, h2, h3⟩

/-- Witness for C8: recording `/a` over a one-entry history in an empty
file system. -/
theorem C8_recordOpen_prune_bound_witness :
    (recordOpen envAbsent "/a" [⟨"/b", 1, 1, 1⟩]).length
        ≤ MAX_HISTORY_ENTRIES ∧
    (recordOpen envAbsent "/a" [⟨"/b", 1, 1, 1⟩]).length
      = min (applyOpen envAbsent.now "/a" [⟨"/b", 1, 1, 1⟩]).length
          MAX_HISTORY_ENTRIES ∧
    (recordOpen envAbsent "/a" [⟨"/b", 1, 1, 1⟩]).Sublist
      (applyOpen envAbsent.now "/a" [⟨"/b", 1, 1, 1⟩]) ∧
    (∀ e ∈ applyOpen envAbsent.now "/a" [⟨"/b", 1, 1, 1⟩],
      e ∉ recordOpen envAbsent "/a" [⟨"/b", 1, 1, 1⟩] →
      ∀ k ∈ recordOpen envAbsent "/a" [⟨"/b", 1, 1, 1⟩],
        e.lastOpened ≤ k.lastOpened) :=
  C8_recordOpen_prune_bound envAbsent "/a" [⟨"/b", 1, 1, 1⟩] (by decide)
    (by decide)

/-- C10: `getRecentFolders` lists the existing, non-project,
non-project-subfolder, non-worktree history folders sorted by `lastOpened`
descending, and removes the vanished paths from the persisted history. -/
theorem C10_getRecentFolders_spec (env : Env) (h : History)
    (ps : List Project) (f : RecentFolder) :
    (getRecentFolders env h ps).1.Pairwise
      (fun a b => b.lastOpened ≤ a.lastOpened) ∧
    (f ∈ (getRecentFolders env h ps).1 ↔
      ∃ e ∈ h,
        f = { name := basename e.path, path := e.path,
              lastOpened := e.lastOpened, openCount := e.openCount } ∧
        fsExists env e.path = true ∧
        e.path ∉ ps.map (fun pr => pr.path) ∧
        (∀ pr ∈ ps, strStartsWith e.path (pr.path ++ pathSep) = false) ∧
        isKnownProjectWorktreeFolder (ps.map (fun pr => pr.name)) e.path
          = false) ∧
    (getRecentFolders env h ps).2 = h.filter (fun e => fsExists env e.path)
    := by
  have hperm : (List.insertionSort byLastOpenedDesc h).Perm h :=
    List.perm_insertionSort byLastOpenedDesc h
  have hpred : ∀ e : WorkspaceHistoryEntry,
      (fsExists env e.path &&
       !(ps.map (fun pr => pr.path)).contains e.path &&
       !(ps.map (fun pr => pr.path)).any
          (fun pp => strStartsWith e.path (pp ++ pathSep)) &&
       !isKnownProjectWorktreeFolder (ps.map (fun pr => pr.name)) e.path)
        = true ↔
      (fsExists env e.path = true ∧
       e.path ∉ ps.map (fun pr => pr.path) ∧
       (∀ pr ∈ ps, strStartsWith e.path (pr.path ++ pathSep) = false) ∧
       isKnownProjectWorktreeFolder (ps.map (fun pr => pr.name)) e.path
         = false) := by
    intro e
    simp only [Bool.and_eq_true, Bool.not_eq_true', List.elem_eq_mem,
      decide_eq_false_iff_not, List.any_eq_false, List.mem_map,
      and_assoc, forall_exists_index]
    constructor
    · rintro ⟨hfe, hnp, hns, hnw⟩
      refine ⟨hfe, hnp, ?_, hnw⟩
      intro pr hpr
      have := hns pr.path pr ⟨hpr, rfl⟩
      simpa using this
    · rintro ⟨hfe, hnp, hns, hnw⟩
      refine ⟨hfe, hnp, ?_, hnw⟩
      rintro x pr ⟨hpr, hpx⟩
      have := hns pr hpr
      rw [hpx] at this
      simp [this]
  refine ⟨?_, ?_, ?_⟩
  · simp only [getRecentFolders]
    refine List.Pairwise.map _ (fun a b hab => hab) ?_
    exact (List.sorted_insertionSort byLastOpenedDesc h).filter _
  · simp only [getRecentFolders]
    constructor
    · intro hf
      obtain ⟨e', he', hfe⟩ := List.mem_map.mp hf
      obtain ⟨hes, hp⟩ := List.mem_filter.mp he'
      obtain ⟨c1, c2, c3, c4⟩ := (hpred e').mp hp
      exact ⟨e', hperm.mem_iff.mp hes, hfe.symm, c1, c2, c3, c4⟩
    · rintro ⟨e', he', hfe, c1, c2, c3, c4⟩
      apply List.mem_map.mpr
      refine ⟨e', List.mem_filter.mpr ⟨hperm.mem_iff.mpr he',
        (hpred e').mpr ⟨c1, c2, c3, c4⟩⟩, hfe.symm⟩
  · simp only [getRecentFolders]
    apply List.filter_congr
    intro e he
    cases hfe : fsExists env e.path with
    | true =>
        rw [Bool.not_eq_true']
        simp only [List.elem_eq_mem, decide_eq_false_iff_not]
        intro hmem
        obtain ⟨x, hxf, hxe⟩ := List.mem_map.mp hmem
        obtain ⟨hxs, hxp⟩ := List.mem_filter.mp hxf
        rw [Bool.not_eq_true'] at hxp
        rw [hxe] at hxp
        rw [hfe] at hxp
        cases hxp
    | false =>
        have he' : e ∈ getHistorySorted h := hperm.mem_iff.mpr he
        have hmem : e.path ∈ (List.filter
            (fun entry => !fsExists env entry.path)
            (getHistorySorted h)).map (fun x => x.path) :=
          List.mem_map_of_mem _
            (List.mem_filter.mpr ⟨he', by rw [hfe]; rfl⟩)
        rw [Bool.not_eq_false']
        simp only [List.elem_eq_mem, decide_eq_true_eq]
        exact hmem

/-- A concrete tree-provider state with one tagged project and no
filter. -/
def stSample : TreeState :=
  { projects := [⟨"a", "/a"⟩],
    tagsConfig := [("Front", 0)],
    metadata := [("/a", ["Front"])],
    filterTagIds := [],
    groupingDepth := 1,
    history := [],
    sortOrder := .recent,
    sortDirection := .desc }

/-- C2: without a filter, grouping recurses by priority: the root shows
exactly the priority-0 tags with a matching project (plus the untagged
group when untagged projects exist), and the sub-tag nodes under a node of
priority p are exactly the priority-(p+1) tags carried, together with the
node's whole tag path, by some project — produced only while the parent's
priority is strictly below the grouping depth. -/
theorem C2_priority_grouping (st : TreeState) (t parentTag : ProjectTag)
    (tagPath : List String) (hf : st.filterTagIds = []) :
    ((∃ tp c hc, TreeNode.tagNode t tp c hc ∈ getTagHierarchyRoot st) ↔
      (t.name, t.priority) ∈ st.tagsConfig ∧ t.priority = 0 ∧
      ∃ p ∈ st.projects,
        (ProjectMetadataService.getTags st.metadata p.path).contains t.name
          = true) ∧
    ((∃ c, TreeNode.untaggedNode c ∈ getTagHierarchyRoot st) ↔
      ∃ p ∈ st.projects,
        ProjectMetadataService.getTags st.metadata p.path = []) ∧
    ((∃ tp c hc,
        TreeNode.tagNode t tp c hc ∈ getTagChildren st parentTag tagPath) ↔
      parentTag.priority < st.groupingDepth ∧
      (t.name, t.priority) ∈ st.tagsConfig ∧
      t.priority = parentTag.priority + 1 ∧
      ∃ p ∈ st.projects,
        ((tagPath ++ [t.name]).all (fun tg =>
          (ProjectMetadataService.getTags st.metadata p.path).contains tg))
          = true) := by
  have hfn : filterNames st = [] := by simp [filterNames, hf]
  have hroot : getTagHierarchyRoot st =
      (TagService.getTagsByPriority st.tagsConfig 0).filterMap (fun tag =>
        if getProjectCountWithTags st [tag.name] > 0 then
          some (TreeNode.tagNode tag [tag.name]
            (getProjectCountWithTags st [tag.name])
            (decide (st.groupingDepth > 0)))
        else none) ++
      (if !(ProjectMetadataService.getUntaggedProjects st.metadata
            (st.projects.map (fun p => p.path))).isEmpty then
        [TreeNode.untaggedNode (ProjectMetadataService.getUntaggedProjects
          st.metadata (st.projects.map (fun p => p.path))).length]
      else []) := by
    simp [getTagHierarchyRoot, hf]
  refine ⟨?_, ?_, ?_⟩
  · rw [hroot]
    constructor
    · rintro ⟨tp, c, hc, hmem⟩
      rcases List.mem_append.mp hmem with hmem | hmem
      · obtain ⟨a, ha, hga⟩ := List.mem_filterMap.mp hmem
        by_cases hcount : getProjectCountWithTags st [a.name] > 0
        · rw [if_pos hcount] at hga
          injection hga with hga2
          have hta : t = a := by
            injection hga2.symm with h1 h2 h3 h4
          subst hta
          obtain ⟨hcfg, hpr⟩ := (mem_getTagsByPriority _ 0 t).mp ha
          obtain ⟨p, hp, hall⟩ := (getProjectCountWithTags_pos _ _).mp hcount
          exact ⟨hcfg, hpr, p, hp, by simpa using hall⟩
        · rw [if_neg hcount] at hga
          cases hga
      · exfalso
        revert hmem
        split_ifs <;> simp
    · rintro ⟨hcfg, hpr, p, hp, hcont⟩
      refine ⟨[t.name], getProjectCountWithTags st [t.name],
        decide (st.groupingDepth > 0), ?_⟩
      apply List.mem_append.mpr
      left
      apply List.mem_filterMap.mpr
      refine ⟨t, (mem_getTagsByPriority _ 0 t).mpr ⟨hcfg, hpr⟩, ?_⟩
      rw [if_pos ((getProjectCountWithTags_pos st [t.name]).mpr
        ⟨p, hp, by simpa using hcont⟩)]
  · rw [hroot]
    constructor
    · rintro ⟨c, hmem⟩
      rcases List.mem_append.mp hmem with hmem | hmem
      · exfalso
        obtain ⟨a, ha, hga⟩ := List.mem_filterMap.mp hmem
        by_cases hcount : getProjectCountWithTags st [a.name] > 0
        · rw [if_pos hcount] at hga
          exact absurd hga (by simp)
        · rw [if_neg hcount] at hga
          cases hga
      · revert hmem
        split_ifs with hu
        · intro _
          exact (getUntaggedProjects_ne_nil st).mp
            (by simpa [Bool.not_eq_true', List.isEmpty_eq_false] using hu)
        · intro hmem
          cases hmem
    · rintro ⟨p, hp, htags⟩
      have hne : ProjectMetadataService.getUntaggedProjects st.metadata
          (st.projects.map (fun q => q.path)) ≠ [] :=
        (getUntaggedProjects_ne_nil st).mpr ⟨p, hp, htags⟩
      refine ⟨(ProjectMetadataService.getUntaggedProjects st.metadata
        (st.projects.map (fun q => q.path))).length, ?_⟩
      apply List.mem_append.mpr
      right
      rw [if_pos (by simp [Bool.not_eq_true', List.isEmpty_eq_false, hne])]
      exact List.mem_singleton.mpr rfl
  · have h1 : (∃ tp c hc,
        TreeNode.tagNode t tp c hc ∈ getTagChildren st parentTag tagPath) ↔
        (∃ tp c hc,
          TreeNode.tagNode t tp c hc ∈ childTagItems st parentTag tagPath)
        := by
      constructor
      · rintro ⟨tp, c, hc, hm⟩
        exact ⟨tp, c, hc,
          (tagNode_mem_getTagChildren st parentTag tagPath t tp c hc).mp hm⟩
      · rintro ⟨tp, c, hc, hm⟩
        exact ⟨tp, c, hc,
          (tagNode_mem_getTagChildren st parentTag tagPath t tp c hc).mpr hm⟩
    rw [h1,
      exists_tagNode_childTagItems_unfiltered st parentTag tagPath t hfn,
      mem_getTagsByPriority, getProjectsWithAllTags_ne_nil]
    tauto

/-- Witness for C2 at the concrete one-project state. -/
theorem C2_priority_grouping_witness :
    stSample.filterTagIds = [] ∧
    (((∃ tp c hc, TreeNode.tagNode ⟨"Front", 0⟩ tp c hc ∈
        getTagHierarchyRoot stSample) ↔
      ("Front", (0 : Int)) ∈ stSample.tagsConfig ∧ (0 : Int) = 0 ∧
      ∃ p ∈ stSample.projects,
        (ProjectMetadataService.getTags stSample.metadata p.path).contains
          "Front" = true) ∧
    ((∃ c, TreeNode.untaggedNode c ∈ getTagHierarchyRoot stSample) ↔
      ∃ p ∈ stSample.projects,
        ProjectMetadataService.getTags stSample.metadata p.path = []) ∧
    ((∃ tp c hc, TreeNode.tagNode ⟨"Front", 0⟩ tp c hc ∈
        getTagChildren stSample ⟨"Front", 0⟩ ["Front"]) ↔
      (0 : Int) < stSample.groupingDepth ∧
      ("Front", (0 : Int)) ∈ stSample.tagsConfig ∧
      (0 : Int) = 0 + 1 ∧
      ∃ p ∈ stSample.projects,
        ((["Front"] ++ ["Front"]).all (fun tg =>
          (ProjectMetadataService.getTags stSample.metadata p.path).contains
            tg)) = true)) :=
  ⟨rfl, C2_priority_grouping stSample ⟨"Front", 0⟩ ⟨"Front", 0⟩ ["Front"]
    rfl⟩

/-- C3: without a filter, a project counted under a displayed sub-tag node
is never also listed directly at the same level: the directly listed
projects are exactly the projects matching the whole tag path that match
no displayed sub-tag node's path. -/
theorem C3_grouped_ungrouped_dedup (st : TreeState)
    (parentTag : ProjectTag) (tagPath : List String) (p : Project)
    (hf : st.filterTagIds = []) :
    (TreeNode.projectNode p ∈ getTagChildren st parentTag tagPath ↔
      p ∈ st.projects ∧
      (tagPath.all (fun tg =>
        (ProjectMetadataService.getTags st.metadata p.path).contains tg))
        = true ∧
      ∀ t tp c hc,
        TreeNode.tagNode t tp c hc ∈ getTagChildren st parentTag tagPath →
        p ∉ getProjectsWithAllTags st tp) ∧
    (∀ t tp c hc,
      TreeNode.tagNode t tp c hc ∈ getTagChildren st parentTag tagPath →
      p ∈ getProjectsWithAllTags st tp →
      TreeNode.projectNode p ∉ getTagChildren st parentTag tagPath) := by
  have hfn : filterNames st = [] := by simp [filterNames, hf]
  have hmain : TreeNode.projectNode p ∈ getTagChildren st parentTag tagPath
      ↔ p ∈ st.projects ∧
      (tagPath.all (fun tg =>
        (ProjectMetadataService.getTags st.metadata p.path).contains tg))
        = true ∧
      ∀ t tp c hc,
        TreeNode.tagNode t tp c hc ∈ getTagChildren st parentTag tagPath →
        p ∉ getProjectsWithAllTags st tp := by
    rw [projectNode_mem_getTagChildren]
    unfold projectsAtLevel
    rw [List.mem_filter]
    constructor
    · rintro ⟨hpw, hcond⟩
      obtain ⟨hp, hall⟩ := List.mem_filter.mp hpw
      refine ⟨hp, hall, ?_⟩
      intro t tp c hc hnode hpm
      have hnotg : p.path ∉ groupedPaths st parentTag tagPath := by
        simp only [hfn, List.isEmpty_nil, Bool.not_true, Bool.not_false,
          List.any_nil, Bool.true_or, Bool.and_true, Bool.not_eq_true',
          List.elem_eq_mem, decide_eq_false_iff_not] at hcond
        exact hcond
      exact hnotg
        ((mem_groupedPaths_unfiltered st parentTag tagPath p hfn hp).mpr
          ⟨t, tp, c, hc,
            (tagNode_mem_getTagChildren st parentTag tagPath t tp c
              hc).mp hnode, hpm⟩)
    · rintro ⟨hp, hall, hnone⟩
      refine ⟨List.mem_filter.mpr ⟨hp, hall⟩, ?_⟩
      have hng : p.path ∉ groupedPaths st parentTag tagPath := by
        intro hg
        obtain ⟨t, tp, c, hc, hnode, hpm⟩ :=
          (mem_groupedPaths_unfiltered st parentTag tagPath p hfn hp).mp hg
        exact hnone t tp c hc
          ((tagNode_mem_getTagChildren st parentTag tagPath t tp c
            hc).mpr hnode) hpm
      simp only [hfn, List.isEmpty_nil, Bool.not_true, Bool.not_false,
        List.any_nil, Bool.true_or, Bool.and_true, Bool.not_eq_true',
        List.elem_eq_mem, decide_eq_false_iff_not]
      exact hng
  refine ⟨hmain, ?_⟩
  intro t tp c hc hnode hpm hproj
  obtain ⟨_, _, hfor⟩ := hmain.mp hproj
  exact hfor t tp c hc hnode hpm

/-- Witness for C3 at the concrete one-project state. -/
theorem C3_grouped_ungrouped_dedup_witness :
    stSample.filterTagIds = [] ∧
    ((TreeNode.projectNode ⟨"a", "/a"⟩ ∈
        getTagChildren stSample ⟨"Front", 0⟩ ["Front"] ↔
      (⟨"a", "/a"⟩ : Project) ∈ stSample.projects ∧
      ((["Front"] : List String).all (fun tg =>
        (ProjectMetadataService.getTags stSample.metadata "/a").contains
          tg)) = true ∧
      ∀ t tp c hc,
        TreeNode.tagNode t tp c hc ∈
          getTagChildren stSample ⟨"Front", 0⟩ ["Front"] →
        (⟨"a", "/a"⟩ : Project) ∉ getProjectsWithAllTags stSample tp) ∧
    (∀ t tp c hc,
      TreeNode.tagNode t tp c hc ∈
        getTagChildren stSample ⟨"Front", 0⟩ ["Front"] →
      (⟨"a", "/a"⟩ : Project) ∈ getProjectsWithAllTags stSample tp →
      TreeNode.projectNode ⟨"a", "/a"⟩ ∉
        getTagChildren stSample ⟨"Front", 0⟩ ["Front"])) :=
  ⟨rfl, C3_grouped_ungrouped_dedup stSample ⟨"Front", 0⟩ ["Front"]
    ⟨"a", "/a"⟩ rfl⟩

/-- A concrete tree-provider state filtering on the tag `Front`. -/
def stFiltered : TreeState :=
  { projects := [⟨"a", "/a"⟩],
    tagsConfig := [("Front", 0)],
    metadata := [("/a", ["Front"])],
    filterTagIds := ["Front"],
    groupingDepth := 1,
    history := [],
    sortOrder := .recent,
    sortDirection := .desc }

/-- C4: with an active filter holding a non-untagged tag, the root shows
exactly the priority-0 tags under which some project carries both the root
tag and a filter tag; the untagged group appears iff the filter holds the
untagged marker and untagged projects exist; and project items only appear
under a tag node whose tag is itself a filter tag (on a project matching
some filter tag). -/
theorem C4_filter_pruning (st : TreeState) (t : ProjectTag)
    (parentTag : ProjectTag) (tagPath : List String) (p : Project)
    (hfil : filterNames st ≠ []) :
    ((∃ tp c hc, TreeNode.tagNode t tp c hc ∈ getTagHierarchyRoot st) ↔
      (t.name, t.priority) ∈ st.tagsConfig ∧ t.priority = 0 ∧
      ∃ q ∈ st.projects,
        (ProjectMetadataService.getTags st.metadata q.path).contains t.name
          = true ∧
        ∃ f ∈ filterNames st,
          (ProjectMetadataService.getTags st.metadata q.path).contains f
            = true) ∧
    ((∃ c, TreeNode.untaggedNode c ∈ getTagHierarchyRoot st) ↔
      st.filterTagIds.contains untaggedMarker = true ∧
      ∃ q ∈ st.projects,
        ProjectMetadataService.getTags st.metadata q.path = []) ∧
    (TreeNode.projectNode p ∈ getTagChildren st parentTag tagPath →
      (filterNames st).contains parentTag.name = true ∧
      ∃ f ∈ filterNames st,
        (ProjectMetadataService.getTags st.metadata p.path).contains f
          = true) := by
  have hids : st.filterTagIds ≠ [] := by
    intro h
    exact hfil (by simp [filterNames, h])
  have c1 : st.filterTagIds.isEmpty = false :=
    List.isEmpty_eq_false.mpr hids
  have c2 : (st.filterTagIds.filter (fun n => n != untaggedMarker)).isEmpty
      = false :=
    List.isEmpty_eq_false.mpr (by simpa [filterNames] using hfil)
  have hroot : getTagHierarchyRoot st =
      (if st.filterTagIds.contains untaggedMarker &&
          !(ProjectMetadataService.getUntaggedProjects st.metadata
            (st.projects.map (fun q => q.path))).isEmpty then
        [TreeNode.untaggedNode (ProjectMetadataService.getUntaggedProjects
          st.metadata (st.projects.map (fun q => q.path))).length]
      else []) ++
      (TagService.getTagsByPriority st.tagsConfig 0).filterMap
        (fun rootTag =>
          if getFilteredProjectCountUnderTag st [rootTag.name]
              (filterNames st) > 0 then
            some (TreeNode.tagNode rootTag [rootTag.name]
              (getFilteredProjectCountUnderTag st [rootTag.name]
                (filterNames st))
              (!(filterNames st).contains rootTag.name &&
                decide (st.groupingDepth > 0)))
          else none) := by
    simp [getTagHierarchyRoot, c1, c2, filterNames]
  refine ⟨?_, ?_, ?_⟩
  · rw [hroot]
    constructor
    · rintro ⟨tp, c, hc, hmem⟩
      rcases List.mem_append.mp hmem with hmem | hmem
      · exfalso
        revert hmem
        split_ifs <;> simp
      · obtain ⟨a, ha, hga⟩ := List.mem_filterMap.mp hmem
        by_cases hcount : getFilteredProjectCountUnderTag st [a.name]
            (filterNames st) > 0
        · rw [if_pos hcount] at hga
          injection hga with hga2
          have hta : t = a := by
            injection hga2.symm with h1 h2 h3 h4
          subst hta
          obtain ⟨hcfg, hpr⟩ := (mem_getTagsByPriority _ 0 t).mp ha
          obtain ⟨q, hq, hall, hany⟩ :=
            (getFilteredProjectCountUnderTag_pos _ _ _).mp hcount
          refine ⟨hcfg, hpr, q, hq, by simpa using hall, ?_⟩
          obtain ⟨f, hf1, hf2⟩ := List.any_eq_true.mp hany
          exact ⟨f, hf1, hf2⟩
        · rw [if_neg hcount] at hga
          cases hga
    · rintro ⟨hcfg, hpr, q, hq, hcont, f, hf1, hf2⟩
      refine ⟨[t.name],
        getFilteredProjectCountUnderTag st [t.name] (filterNames st),
        !(filterNames st).contains t.name && decide (st.groupingDepth > 0),
        ?_⟩
      apply List.mem_append.mpr
      right
      apply List.mem_filterMap.mpr
      refine ⟨t, (mem_getTagsByPriority _ 0 t).mpr ⟨hcfg, hpr⟩, ?_⟩
      rw [if_pos ((getFilteredProjectCountUnderTag_pos st [t.name]
        (filterNames st)).mpr
        ⟨q, hq, by simpa using hcont, List.any_eq_true.mpr ⟨f, hf1, hf2⟩⟩)]
  · rw [hroot]
    constructor
    · rintro ⟨c, hmem⟩
      rcases List.mem_append.mp hmem with hmem | hmem
      · revert hmem
        split_ifs with hu
        · intro _
          rw [Bool.and_eq_true] at hu
          exact ⟨hu.1, (getUntaggedProjects_ne_nil st).mp
            (by simpa [Bool.not_eq_true', List.isEmpty_eq_false]
              using hu.2)⟩
        · intro hmem
          cases hmem
      · exfalso
        obtain ⟨a, ha, hga⟩ := List.mem_filterMap.mp hmem
        by_cases hcount : getFilteredProjectCountUnderTag st [a.name]
            (filterNames st) > 0
        · rw [if_pos hcount] at hga
          exact absurd hga (by simp)
        · rw [if_neg hcount] at hga
          cases hga
    · rintro ⟨hmark, q, hq, htags⟩
      have hne : ProjectMetadataService.getUntaggedProjects st.metadata
          (st.projects.map (fun r => r.path)) ≠ [] :=
        (getUntaggedProjects_ne_nil st).mpr ⟨q, hq, htags⟩
      refine ⟨(ProjectMetadataService.getUntaggedProjects st.metadata
        (st.projects.map (fun r => r.path))).length, ?_⟩
      apply List.mem_append.mpr
      left
      rw [if_pos (by
        rw [Bool.and_eq_true]
        exact ⟨hmark,
          by simp [Bool.not_eq_true', List.isEmpty_eq_false, hne]⟩)]
      exact List.mem_singleton.mpr rfl
  · intro hproj
    have hpl := (projectNode_mem_getTagChildren st parentTag tagPath p).mp
      hproj
    unfold projectsAtLevel at hpl
    obtain ⟨_, hcond⟩ := List.mem_filter.mp hpl
    rw [Bool.and_eq_true] at hcond
    have hor := hcond.2
    rw [Bool.or_eq_true] at hor
    rcases hor with hor | hor
    · exfalso
      rw [Bool.not_eq_true', Bool.not_eq_false'] at hor
      rw [List.isEmpty_iff] at hor
      exact hfil hor
    · rw [Bool.and_eq_true] at hor
      refine ⟨hor.2, ?_⟩
      obtain ⟨f, hf1, hf2⟩ := List.any_eq_true.mp hor.1
      exact ⟨f, hf1, hf2⟩

/-- Witness for C4 at the concrete filtered state. -/
theorem C4_filter_pruning_witness :
    filterNames stFiltered ≠ [] ∧
    (((∃ tp c hc, TreeNode.tagNode ⟨"Front", 0⟩ tp c hc ∈
        getTagHierarchyRoot stFiltered) ↔
      ("Front", (0 : Int)) ∈ stFiltered.tagsConfig ∧ (0 : Int) = 0 ∧
      ∃ q ∈ stFiltered.projects,
        (ProjectMetadataService.getTags stFiltered.metadata q.path).contains
          "Front" = true ∧
        ∃ f ∈ filterNames stFiltered,
          (ProjectMetadataService.getTags stFiltered.metadata
            q.path).contains f = true) ∧
    ((∃ c, TreeNode.untaggedNode c ∈ getTagHierarchyRoot stFiltered) ↔
      stFiltered.filterTagIds.contains untaggedMarker = true ∧
      ∃ q ∈ stFiltered.projects,
        ProjectMetadataService.getTags stFiltered.metadata q.path = []) ∧
    (TreeNode.projectNode ⟨"a", "/a"⟩ ∈
        getTagChildren stFiltered ⟨"Front", 0⟩ ["Front"] →
      (filterNames stFiltered).contains "Front" = true ∧
      ∃ f ∈ filterNames stFiltered,
        (ProjectMetadataService.getTags stFiltered.metadata "/a").contains
          f = true)) :=
  ⟨by decide, C4_filter_pruning stFiltered ⟨"Front", 0⟩ ⟨"Front", 0⟩
    ["Front"] ⟨"a", "/a"⟩ (by decide)⟩

end Projectory
